import Mathlib

/-!
Shallow embedding of the chat hub from `src/main.go` (package main of
simonwistow/go-chat-system).  The hub (`ConnectionPool.Run`) serializes
four kinds of events — connect (register), disconnect (unregister),
inbound line (broadcast/command) and shutdown — over three maps:
`connections : identity → net.Conn`, `nicks : identity → nickname` and
`rnicks : nickname → identity`.

Go maps are modelled as association lists with map semantics (`mget`,
`mput`, `mdel`); a `net.Conn` is modelled as a pair of a connection
object id and its remote-address string (`RemoteAddr().String()`), so
that Go's interface equality (`remote == message.connection`) is
equality of the pair while distinct connection objects may share an
address.  Writes (`fmt.Fprintf(conn, …)`) are collected as an ordered
output list of (connection, text) pairs.  A Go panic (index out of
range on `parts[0]`) is modelled as `none` of an `Option` result.
-/

namespace ChatHub

/-- Split a character list at every occurrence of `sep`, keeping empty
segments: the list-level body of Go's `strings.Split` with a one-character
separator. -/
def splitOnCharList (sep : Char) : List Char → List (List Char)
  | [] => [[]]
  | c :: rest =>
    match splitOnCharList sep rest with
    | [] => [[c]]
    | h :: t => if c = sep then [] :: h :: t else (c :: h) :: t

/-- Go's `strings.Split(s, sep)` for a one-character separator: always at
least one element, empty segments preserved. -/
def goSplitChar (sep : Char) (s : String) : List String :=
  (splitOnCharList sep s.data).map fun cs => ⟨cs⟩

/-- Go's `strings.HasPrefix(s, pre)`. -/
def goHasPrefix (s pre : String) : Bool := pre.data.isPrefixOf s.data

/-- Go's `strings.Join(xs, sep)`. -/
def goJoin (sep : String) : List String → String
  | [] => ""
  | [s] => s
  | s :: rest => s ++ sep ++ goJoin sep rest

/-- A live connection: `id` distinguishes connection objects (Go interface
identity), `addr` is `conn.RemoteAddr().String()`. -/
structure Conn where
  id : Nat
  addr : String
deriving DecidableEq

/-- Map lookup on an association list: Go `m[k]` (present case). -/
def mget {α : Type} (m : List (String × α)) (k : String) : Option α :=
  match m with
  | [] => none
  | (k', v) :: rest => if k' = k then some v else mget rest k

/-- Map store on an association list: Go `m[k] = v`. -/
def mput {α : Type} (m : List (String × α)) (k : String) (v : α) :
    List (String × α) :=
  match m with
  | [] => [(k, v)]
  | (k', v') :: rest => if k' = k then (k, v) :: rest else (k', v') :: mput rest k v

/-- Map removal on an association list: Go `delete(m, k)`. -/
def mdel {α : Type} (m : List (String × α)) (k : String) : List (String × α) :=
  match m with
  | [] => []
  | (k', v') :: rest => if k' = k then mdel rest k else (k', v') :: mdel rest k

/-- The hub state: the three maps of Go's `ConnectionPool` (the channels are
the event interface, modelled by `Event` below). -/
structure Pool where
  connections : List (String × Conn)
  nicks : List (String × String)
  rnicks : List (String × String)
deriving DecidableEq

/-- Go's `Message`: the sending connection and the raw line. -/
structure Msg where
  connection : Conn
  message : String
deriving DecidableEq

/-- A single write `fmt.Fprintf(conn, text)`: recipient and text. -/
abbrev Output := Conn × String

/-- `getNames`: the sender's identity (`RemoteAddr().String()`) and display
name (`pool.nicks[name]`, falling back to the identity when absent or empty —
a missing Go map entry reads as `""`). -/
def getNames (pool : Pool) (message : Msg) : String × String :=
  let name := message.connection.addr
  let nick := (mget pool.nicks name).getD ""
  (name, if nick = "" then name else nick)

/-- `connectionFromNickOrName`: reverse-nickname lookup first (even a stale
entry redirects), then the connections map. -/
def connectionFromNickOrName (pool : Pool) (name : String) : Option Conn :=
  let name' := match mget pool.rnicks name with
    | some tmp => tmp
    | none => name
  mget pool.connections name'

/-- `sendAll`: one write per roster entry; the entry whose identity key
equals `from` gets the self framing `> text`, every other entry the
attributed framing `from> text`. -/
def sendAll (pool : Pool) (frm : String) (text : String) : List Output :=
  pool.connections.map fun p =>
    if p.1 = frm then (p.2, "> " ++ text ++ "\n")
    else (p.2, frm ++ "> " ++ text ++ "\n")

/-- `handleMessage`: broadcast a plain line attributed to the sender's
display name.  No state change. -/
def handleMessage (pool : Pool) (message : Msg) : Pool × List Output :=
  let names := getNames pool message
  (pool, sendAll pool names.2 message.message)

/-- `handleCommand`: dispatch on the first space-separated token.  `none`
models the Go panic `parts[0]` on an empty argument slice (bare `/nick` or
bare `/privmsg`). -/
def handleCommand (pool : Pool) (message : Msg) : Option (Pool × List Output) :=
  let names := getNames pool message
  let name := names.1
  let nick := names.2
  let text := message.message
  match goSplitChar ' ' text with
  | [] => none
  | cmd :: parts =>
    if cmd = "/nick" then
      if parts.length > 1 then
        some (pool, [(message.connection,
          "Nickname '" ++ goJoin " " parts ++ "' cannot have spaces in\n")])
      else
        match parts with
        | [] => none
        | newNick :: _ =>
          match connectionFromNickOrName pool newNick with
          | some remote =>
            some (pool, [(message.connection,
              "Nickname '" ++ newNick ++ "' is already taken by " ++ remote.addr ++ "\n"),
              (remote,
              "User '" ++ name ++ "' tried to steal your nickname '" ++ newNick ++ "'\n")])
          | none =>
            let pool' : Pool :=
              { pool with
                nicks := mput pool.nicks name newNick
                rnicks := mput pool.rnicks newNick message.connection.addr }
            some (pool', sendAll pool' name
              ("Nickname changed from '" ++ nick ++ "' to '" ++ newNick ++ "'"))
    else if cmd = "/privmsg" then
      match parts with
      | [] => none
      | rnick :: rest =>
        let body := goJoin " " rest
        match connectionFromNickOrName pool rnick with
        | none =>
          some (pool, [(message.connection,
            "Couldn't find a person named '" ++ rnick ++ "'\n")])
        | some remote =>
          if remote = message.connection then
            some (pool, [(message.connection, "You can't privmsg yourself\n")])
          else
            some (pool, [(remote, nick ++ " (private)> " ++ body ++ "\n"),
              (message.connection, "Message sent\n")])
    else if cmd = "/who" then
      let entries := pool.connections.map fun p =>
        let entry := match mget pool.nicks p.1 with
          | some nk => nk ++ " (" ++ p.1 ++ ")"
          | none => p.1
        if p.2 = message.connection then entry ++ " *" else entry
      some (pool, [(message.connection, goJoin "\n" entries ++ "\n")])
    else
      some (pool, [(message.connection, "Unknown command " ++ cmd ++ "\n")])

/-- The four event kinds consumed by `Run`'s select loop. -/
inductive Event where
  | register (conn : Conn)
  | unregister (conn : Conn)
  | inbound (conn : Conn) (text : String)
  | shutdown
deriving DecidableEq

/-- One iteration of `Run`: register stores the connection under its remote
address, unregister deletes only the connections entry, an inbound line is
routed to `handleCommand` when it starts with `/` and to `handleMessage`
otherwise, shutdown closes the sockets and leaves the maps untouched.
`none` models a panic escaping the loop. -/
def step (pool : Pool) (e : Event) : Option (Pool × List Output) :=
  match e with
  | .register conn =>
    some ({ pool with connections := mput pool.connections conn.addr conn }, [])
  | .unregister conn =>
    some ({ pool with connections := mdel pool.connections conn.addr }, [])
  | .inbound conn text =>
    if goHasPrefix text "/" then handleCommand pool ⟨conn, text⟩
    else some (handleMessage pool ⟨conn, text⟩)
  | .shutdown => some (pool, [])

/-- The bidirectional-consistency invariant claimed by the spec: a forward
nickname binding implies a roster entry, and the forward and reverse maps
mirror each other. -/
def NickConsistent (pool : Pool) : Prop :=
  (∀ name nick, mget pool.nicks name = some nick →
    (mget pool.connections name).isSome = true) ∧
  (∀ name nick, mget pool.nicks name = some nick →
    mget pool.rnicks nick = some name) ∧
  (∀ nick name, mget pool.rnicks nick = some name →
    mget pool.nicks name = some nick)

/-- Sample connections for concrete runs. -/
def connA : Conn := ⟨0, "a"⟩

def connB : Conn := ⟨1, "b"⟩

def connC : Conn := ⟨2, "c"⟩

section MapLemmas

variable {α : Type}

theorem mget_mput_self (m : List (String × α)) (k : String) (v : α) :
    mget (mput m k v) k = some v := by
  induction m with
  | nil => simp [mget, mput]
  | cons p rest ih =>
    by_cases h : p.1 = k
    · simp [mput, h, mget]
    · simp [mput, h, mget, ih]

theorem mget_mput_ne (m : List (String × α)) (k k' : String) (v : α)
    (h : k ≠ k') : mget (mput m k v) k' = mget m k' := by
  induction m with
  | nil => simp [mget, mput, h]
  | cons p rest ih =>
    by_cases hp : p.1 = k
    · simp [mput, hp, mget, h]
    · simp [mput, hp, mget, ih]

theorem mget_mdel_self (m : List (String × α)) (k : String) :
    mget (mdel m k) k = none := by
  induction m with
  | nil => simp [mdel, mget]
  | cons p rest ih =>
    by_cases h : p.1 = k
    · simp [mdel, h, ih]
    · simp [mdel, h, mget, ih]

theorem mget_mdel_ne (m : List (String × α)) (k k' : String)
    (h : k ≠ k') : mget (mdel m k) k' = mget m k' := by
  induction m with
  | nil => simp [mdel]
  | cons p rest ih =>
    by_cases hp : p.1 = k
    · simp [mdel, hp, mget, h, ih]
    · simp [mdel, hp, mget, ih]

theorem mdel_mdel_self (m : List (String × α)) (k : String) :
    mdel (mdel m k) k = mdel m k := by
  induction m with
  | nil => simp [mdel]
  | cons p rest ih =>
    by_cases h : p.1 = k
    · simp [mdel, h, ih]
    · simp [mdel, h, ih]

theorem mdel_of_mget_none (m : List (String × α)) (k : String)
    (h : mget m k = none) : mdel m k = m := by
  induction m with
  | nil => simp [mdel]
  | cons p rest ih =>
    by_cases hp : p.1 = k
    · rw [mget, if_pos hp] at h
      exact absurd h (by simp)
    · rw [mget, if_neg hp] at h
      simp [mdel, hp, ih h]

theorem mput_of_mget_some (m : List (String × α)) (k : String) (v : α)
    (h : mget m k = some v) : mput m k v = m := by
  induction m with
  | nil => rw [mget] at h; exact absurd h (by simp)
  | cons p rest ih =>
    by_cases hp : p.1 = k
    · rw [mget, if_pos hp] at h
      cases p with
      | mk k' v' =>
        simp only at hp
        cases h
        simp [mput, hp]
    · rw [mget, if_neg hp] at h
      simp [mput, hp, ih h]

end MapLemmas

/-- C1 counterexample: unregistering identity `a`, which owns nickname
`bob`, removes only the roster entry; the forward binding `a ↦ bob` and the
reverse binding `bob ↦ a` both survive in the maps, so the claim that
Unregister removes the nickname binding in both directions is false. -/
theorem C1_counterexample :
    step ⟨[("a", connA)], [("a", "bob")], [("bob", "a")]⟩
        (Event.unregister connA) =
      some (⟨[], [("a", "bob")], [("bob", "a")]⟩, []) ∧
    mget (Pool.nicks ⟨[], [("a", "bob")], [("bob", "a")]⟩) "a" = some "bob" ∧
    mget (Pool.rnicks ⟨[], [("a", "bob")], [("bob", "a")]⟩) "bob" = some "a" := by
  decide

/-- C1 (amended): processing Unregister(identity) removes only the roster
entry; the forward and reverse nickname bindings owned by that identity are
left in the maps.  Afterwards the identity has no roster entry and the
former nickname no longer resolves to a live connection (its reverse entry
now points at an identity without a roster entry), but neither map entry is
removed. -/
theorem C1_unregister_leaves_bindings (pool : Pool) (conn : Conn)
    (nick : String) (hb : mget pool.rnicks nick = some conn.addr) :
    ∃ pool', step pool (Event.unregister conn) = some (pool', []) ∧
      pool'.nicks = pool.nicks ∧
      pool'.rnicks = pool.rnicks ∧
      mget pool'.connections conn.addr = none ∧
      connectionFromNickOrName pool' nick = none := by
  refine ⟨_, rfl, rfl, rfl, mget_mdel_self _ _, ?_⟩
  rw [connectionFromNickOrName]
  simp only [hb]
  exact mget_mdel_self _ _

/-- C1 witness: the amended statement at the concrete one-user state. -/
theorem C1_witness :
    mget (Pool.rnicks ⟨[("a", connA)], [("a", "bob")], [("bob", "a")]⟩) "bob" =
      some connA.addr ∧
    (∃ pool', step ⟨[("a", connA)], [("a", "bob")], [("bob", "a")]⟩
        (Event.unregister connA) = some (pool', []) ∧
      pool'.nicks = Pool.nicks ⟨[("a", connA)], [("a", "bob")], [("bob", "a")]⟩ ∧
      pool'.rnicks = Pool.rnicks ⟨[("a", connA)], [("a", "bob")], [("bob", "a")]⟩ ∧
      mget pool'.connections connA.addr = none ∧
      connectionFromNickOrName pool' "bob" = none) :=
  ⟨by decide, C1_unregister_leaves_bindings _ _ _ (by decide)⟩

/-- C3: the claim that no inbound line can abort command processing is
right about the intent (the spec's error taxonomy says protocol errors are
never fatal) but wrong about the code: a bare `/nick` or `/privmsg` with no
argument reaches `parts[0]` on an empty slice and panics, crashing the
event loop.  The embedding returns `none` exactly at the panic. -/
theorem C3_bare_command_panics :
    step ⟨[("a", connA)], [], []⟩ (Event.inbound connA "/nick") = none ∧
    step ⟨[("a", connA)], [], []⟩ (Event.inbound connA "/privmsg") = none := by
  decide

/-- C9: Unregister is idempotent — a second Unregister for the same
identity leaves the state where the first put it, and unregistering an
identity with no roster entry changes nothing. -/
theorem C9_unregister_idempotent (pool : Pool) (conn : Conn) :
    ∃ pool', step pool (Event.unregister conn) = some (pool', []) ∧
      step pool' (Event.unregister conn) = some (pool', []) ∧
      (mget pool.connections conn.addr = none → pool' = pool) := by
  refine ⟨_, rfl, ?_, ?_⟩
  · simp [step, mdel_mdel_self]
  · intro h
    show { pool with connections := mdel pool.connections conn.addr } = pool
    rw [mdel_of_mget_none _ _ h]

/-- C9 witness: both unregister laws at a concrete one-user state. -/
theorem C9_witness :
    ∃ pool', step ⟨[("a", connA)], [], []⟩ (Event.unregister connB) =
        some (pool', []) ∧
      step pool' (Event.unregister connB) = some (pool', []) ∧
      (mget (Pool.connections ⟨[("a", connA)], [], []⟩) connB.addr = none →
        pool' = ⟨[("a", connA)], [], []⟩) :=
  C9_unregister_idempotent _ _

/-- C10: registering a connection for an identity that already has a roster
entry overwrites the entry with the new handle (no rejection), and a
nickname binding previously held by the identity survives and applies to
messages from the new handle. -/
theorem C10_register_merges (pool : Pool) (conn conn' : Conn)
    (nick text : String)
    (haddr : conn'.addr = conn.addr)
    (hreg : mget pool.connections conn.addr = some conn)
    (hnick : mget pool.nicks conn.addr = some nick)
    (hne : nick ≠ "") :
    ∃ pool', step pool (Event.register conn') = some (pool', []) ∧
      mget pool'.connections conn.addr = some conn' ∧
      pool'.nicks = pool.nicks ∧
      pool'.rnicks = pool.rnicks ∧
      getNames pool' ⟨conn', text⟩ = (conn.addr, nick) := by
  refine ⟨_, rfl, ?_, rfl, rfl, ?_⟩
  · rw [← haddr]
    exact mget_mput_self _ _ _
  · rw [getNames]
    simp only [haddr, hnick, Option.getD_some, if_neg hne]

/-- C10 witness: a second connection object with the same remote address
replaces the first and inherits its nickname. -/
theorem C10_witness :
    Conn.addr ⟨7, "a"⟩ = connA.addr ∧
    (∃ pool', step ⟨[("a", connA)], [("a", "bob")], [("bob", "a")]⟩
        (Event.register ⟨7, "a"⟩) = some (pool', []) ∧
      mget pool'.connections connA.addr = some ⟨7, "a"⟩ ∧
      pool'.nicks = Pool.nicks ⟨[("a", connA)], [("a", "bob")], [("bob", "a")]⟩ ∧
      pool'.rnicks = Pool.rnicks ⟨[("a", connA)], [("a", "bob")], [("bob", "a")]⟩ ∧
      getNames pool' ⟨⟨7, "a"⟩, "hi"⟩ = (connA.addr, "bob")) :=
  ⟨by decide, C10_register_merges _ connA ⟨7, "a"⟩ "bob" "hi" (by decide)
    (by decide) (by decide) (by decide)⟩

/-- Routing: an inbound line that starts with the command prefix goes to
`handleCommand`. -/
theorem step_inbound_command (pool : Pool) (conn : Conn) (text : String)
    (hpre : goHasPrefix text "/" = true) :
    step pool (Event.inbound conn text) = handleCommand pool ⟨conn, text⟩ := by
  simp [step, hpre]

/-- Routing: an inbound line without the command prefix is broadcast. -/
theorem step_inbound_plain (pool : Pool) (conn : Conn) (text : String)
    (hpre : goHasPrefix text "/" = false) :
    step pool (Event.inbound conn text) = some (handleMessage pool ⟨conn, text⟩) := by
  simp [step, hpre]

/-- C5 counterexample: `/nick ` with a trailing space parses to the empty
argument, which the code accepts — it installs the empty string as the
nickname (forward and reverse) and broadcasts the change, contradicting
the claim that an empty argument fails with no state change. -/
theorem C5_counterexample :
    step ⟨[("a", connA)], [], []⟩ (Event.inbound connA "/nick ") =
      some (⟨[("a", connA)], [("a", "")], [("", "a")]⟩,
        [(connA, "> Nickname changed from 'a' to ''\n")]) ∧
    (⟨[("a", connA)], [("a", "")], [("", "a")]⟩ : Pool) ≠
      ⟨[("a", connA)], [], []⟩ := by
  decide

/-- C5 (amended): `/nick` fails reply-only with no state change when the
argument has internal whitespace (two or more tokens) or when it resolves
via nickname-then-identity lookup to a live connection; in the collision
case the requester is told the name is taken, naming the owner's raw
identity, and the owner is notified.  An empty argument, however, is
accepted (see the counterexample), and a missing argument panics (C3). -/
theorem C5_nick_failure_cases (pool : Pool) (conn : Conn) (text : String)
    (args : List String)
    (hsplit : goSplitChar ' ' text = "/nick" :: args)
    (hpre : goHasPrefix text "/" = true) :
    (2 ≤ args.length →
      step pool (Event.inbound conn text) =
        some (pool, [(conn,
          "Nickname '" ++ goJoin " " args ++ "' cannot have spaces in\n")])) ∧
    (∀ a remote, args = [a] →
      connectionFromNickOrName pool a = some remote →
      step pool (Event.inbound conn text) =
        some (pool, [(conn,
          "Nickname '" ++ a ++ "' is already taken by " ++ remote.addr ++ "\n"),
          (remote,
          "User '" ++ conn.addr ++ "' tried to steal your nickname '" ++ a ++ "'\n")])) := by
  constructor
  · intro hlen
    rw [step_inbound_command pool conn text hpre]
    simp only [handleCommand, hsplit]
    rw [if_pos trivial, if_pos (show args.length > 1 from hlen)]
  · intro a remote ha hres
    subst ha
    rw [step_inbound_command pool conn text hpre]
    simp only [handleCommand, hsplit, hres, getNames, List.length_singleton]
    rw [if_pos trivial, if_neg (show ¬(1 > 1) by decide)]

/-- C5 witness: the collision branch at a concrete two-user state where
`a` owns nickname `bob` and `b` requests it. -/
theorem C5_witness :
    goSplitChar ' ' "/nick bob" = ["/nick", "bob"] ∧
    step ⟨[("a", connA), ("b", connB)], [("a", "bob")], [("bob", "a")]⟩
        (Event.inbound connB "/nick bob") =
      some (⟨[("a", connA), ("b", connB)], [("a", "bob")], [("bob", "a")]⟩,
        [(connB, "Nickname 'bob' is already taken by a\n"),
         (connA, "User 'b' tried to steal your nickname 'bob'\n")]) :=
  ⟨by decide,
    (C5_nick_failure_cases _ connB "/nick bob" ["bob"] (by decide)
      (by decide)).2 "bob" connA rfl (by decide)⟩

/-- C6 counterexample: identity `a` with nickname `x` successfully runs
`/nick y`; the reverse entry `x ↦ a` is not removed and the old nickname
still resolves to `a`'s connection, contradicting the claim. -/
theorem C6_counterexample :
    step ⟨[("a", connA)], [("a", "x")], [("x", "a")]⟩
        (Event.inbound connA "/nick y") =
      some (⟨[("a", connA)], [("a", "y")], [("x", "a"), ("y", "a")]⟩,
        [(connA, "> Nickname changed from 'x' to 'y'\n")]) ∧
    connectionFromNickOrName ⟨[("a", connA)], [("a", "y")], [("x", "a"), ("y", "a")]⟩
        "x" = some connA := by
  decide

/-- C6 (amended): a successful `/nick <newname>` by an identity with an
existing nickname installs the new forward and reverse bindings and
broadcasts the change notice through the normal fan-out, but it does not
remove the previous reverse binding: the old nickname's reverse entry
survives and still resolves to that identity's connection. -/
theorem C6_nick_keeps_old_reverse (pool : Pool) (conn : Conn)
    (text old newNick : String)
    (hsplit : goSplitChar ' ' text = ["/nick", newNick])
    (hpre : goHasPrefix text "/" = true)
    (hold : mget pool.nicks conn.addr = some old)
    (holdne : old ≠ "")
    (hrev : mget pool.rnicks old = some conn.addr)
    (hnew : connectionFromNickOrName pool newNick = none)
    (hne : old ≠ newNick)
    (hreg : mget pool.connections conn.addr = some conn) :
    ∃ pool', step pool (Event.inbound conn text) =
        some (pool', sendAll pool' conn.addr
          ("Nickname changed from '" ++ old ++ "' to '" ++ newNick ++ "'")) ∧
      pool'.connections = pool.connections ∧
      mget pool'.nicks conn.addr = some newNick ∧
      mget pool'.rnicks newNick = some conn.addr ∧
      mget pool'.rnicks old = some conn.addr ∧
      connectionFromNickOrName pool' old = some conn := by
  refine ⟨⟨pool.connections, mput pool.nicks conn.addr newNick,
    mput pool.rnicks newNick conn.addr⟩,
    ?_, rfl, mget_mput_self _ _ _, mget_mput_self _ _ _, ?_, ?_⟩
  · rw [step_inbound_command pool conn text hpre]
    simp only [handleCommand, hsplit, hnew, getNames, hold, Option.getD_some,
      if_neg holdne, List.length_singleton]
    rw [if_pos trivial, if_neg (show ¬(1 > 1) by decide)]
  · rw [mget_mput_ne _ _ _ _ (Ne.symm hne)]
    exact hrev
  · rw [connectionFromNickOrName]
    simp only [mget_mput_ne _ _ _ _ (Ne.symm hne), hrev]
    exact hreg

/-- C6 witness: the amended statement at a concrete two-user state. -/
theorem C6_witness :
    goSplitChar ' ' "/nick y" = ["/nick", "y"] ∧
    (∃ pool', step ⟨[("a", connA), ("b", connB)], [("a", "x")], [("x", "a")]⟩
        (Event.inbound connA "/nick y") =
        some (pool', sendAll pool' connA.addr
          ("Nickname changed from '" ++ "x" ++ "' to '" ++ "y" ++ "'")) ∧
      pool'.connections =
        Pool.connections ⟨[("a", connA), ("b", connB)], [("a", "x")], [("x", "a")]⟩ ∧
      mget pool'.nicks connA.addr = some "y" ∧
      mget pool'.rnicks "y" = some connA.addr ∧
      mget pool'.rnicks "x" = some connA.addr ∧
      connectionFromNickOrName pool' "x" = some connA) :=
  ⟨by decide,
    C6_nick_keeps_old_reverse _ connA "/nick y" "x" "y" (by decide) (by decide)
      (by decide) (by decide) (by decide) (by decide) (by decide) (by decide)⟩

/-- C7 counterexample: for a roster whose single entry `a` has nickname
`bob`, `/who` prints `bob (a) *` — the nickname annotated with the identity
in parentheses — not `a (bob) *` as the claim's format (identity annotated
with its nickname) would give. -/
theorem C7_counterexample :
    step ⟨[("a", connA)], [("a", "bob")], [("bob", "a")]⟩
        (Event.inbound connA "/who") =
      some (⟨[("a", connA)], [("a", "bob")], [("bob", "a")]⟩,
        [(connA, "bob (a) *\n")]) ∧
    "bob (a) *\n" ≠ "a (bob) *\n" := by
  decide

/-- C7 (amended): `/who` replies to the sender only, with one line per
roster entry joined by newlines; an entry with a bound nickname is the
nickname followed by the identity in parentheses (not the identity
followed by the nickname), an entry without one is the raw identity, and
exactly the entries holding the requester's connection carry the trailing
` *` mark. -/
theorem C7_who_format (pool : Pool) (conn : Conn) :
    step pool (Event.inbound conn "/who") =
      some (pool, [(conn,
        goJoin "\n" (pool.connections.map fun p =>
          (match mget pool.nicks p.1 with
            | some nk => nk ++ " (" ++ p.1 ++ ")"
            | none => p.1) ++
          (if p.2 = conn then " *" else "")) ++ "\n")]) := by
  rw [step_inbound_command pool conn "/who" (by decide)]
  simp only [handleCommand, show goSplitChar ' ' "/who" = ["/who"] from by decide]
  rw [if_neg (show ¬(("/who" : String) = "/nick") by decide),
    if_neg (show ¬(("/who" : String) = "/privmsg") by decide)]
  try rw [if_pos (show ("/who" : String) = "/who" from rfl)]
  have hfun : (fun p : String × Conn =>
      if p.2 = conn then
        (match mget pool.nicks p.1 with
          | some nk => nk ++ " (" ++ p.1 ++ ")"
          | none => p.1) ++ " *"
      else
        match mget pool.nicks p.1 with
        | some nk => nk ++ " (" ++ p.1 ++ ")"
        | none => p.1) =
      fun p : String × Conn =>
        (match mget pool.nicks p.1 with
          | some nk => nk ++ " (" ++ p.1 ++ ")"
          | none => p.1) ++
        (if p.2 = conn then " *" else "") := by
    funext p
    by_cases h : p.2 = conn
    · simp [h]
    · simp [h, String.append_empty]
  rw [hfun]
  try rw [if_pos trivial]

/-- An attributed broadcast line differs from the self-framed line whenever
the attribution prefix is nonempty. -/
theorem attributed_ne_self (addr text : String) (haddr : addr ≠ "") :
    addr ++ "> " ++ text ++ "\n" ≠ "> " ++ text ++ "\n" := by
  intro h
  have hlen : (addr ++ "> " ++ text ++ "\n").length =
      ("> " ++ text ++ "\n").length := congrArg String.length h
  simp only [String.length_append] at hlen
  have h0 : addr.length = 0 := by omega
  have hdata : addr.data = [] := by
    cases addr with
    | mk data =>
      rw [show String.length ⟨data⟩ = data.length from rfl] at h0
      exact List.length_eq_zero.mp h0
  exact haddr (String.ext hdata)

/-- Broadcast entries for identities other than the sender never pass the
self-framing filter. -/
theorem filter_attributed_nil (rest : List (String × Conn)) (addr text : String)
    (haddr : addr ≠ "") (hne : ∀ q ∈ rest, q.1 ≠ addr) :
    ((rest.map fun p => if p.1 = addr then (p.2, "> " ++ text ++ "\n")
        else (p.2, addr ++ "> " ++ text ++ "\n")).filter
      fun o => o.2 == "> " ++ text ++ "\n") = [] := by
  induction rest with
  | nil => rfl
  | cons q qs ih =>
    rw [List.map_cons, List.filter_cons,
      if_neg (hne q (List.mem_cons_self q qs))]
    have hsel : (((q.2, addr ++ "> " ++ text ++ "\n") : Output).2 ==
        "> " ++ text ++ "\n") = false :=
      beq_eq_false_iff_ne.mpr (attributed_ne_self addr text haddr)
    rw [hsel]
    simp only [Bool.false_eq_true, if_false]
    exact ih fun q hq => hne q (List.mem_cons_of_mem _ hq)

/-- With distinct identity keys, the self-framed line of a broadcast goes
exactly to the roster entry keyed by the sender's identity. -/
theorem filter_self_singleton (l : List (String × Conn)) (addr text : String)
    (conn : Conn) (haddr : addr ≠ "") (hreg : mget l addr = some conn)
    (hnodup : (l.map Prod.fst).Nodup) :
    ((l.map fun p => if p.1 = addr then (p.2, "> " ++ text ++ "\n")
        else (p.2, addr ++ "> " ++ text ++ "\n")).filter
      fun o => o.2 == "> " ++ text ++ "\n") = [(conn, "> " ++ text ++ "\n")] := by
  induction l with
  | nil => rw [mget] at hreg; exact absurd hreg (by simp)
  | cons p rest ih =>
    rw [List.map_cons] at hnodup
    rw [List.nodup_cons] at hnodup
    by_cases hp : p.1 = addr
    · rw [mget, if_pos hp] at hreg
      injection hreg with hv
      rw [List.map_cons, if_pos hp, List.filter_cons]
      have hsel : (((p.2, "> " ++ text ++ "\n") : Output).2 ==
          "> " ++ text ++ "\n") = true := beq_self_eq_true _
      rw [hsel, if_pos rfl]
      rw [hv]
      have hrest : ∀ q ∈ rest, q.1 ≠ addr := by
        intro q hq hqa
        exact hnodup.1 (hp ▸ hqa ▸ List.mem_map_of_mem Prod.fst hq)
      rw [filter_attributed_nil rest addr text haddr hrest]
    · rw [mget, if_neg hp] at hreg
      rw [List.map_cons, if_neg hp, List.filter_cons]
      have hsel : (((p.2, addr ++ "> " ++ text ++ "\n") : Output).2 ==
          "> " ++ text ++ "\n") = false :=
        beq_eq_false_iff_ne.mpr (attributed_ne_self addr text haddr)
      rw [hsel]
      simp only [Bool.false_eq_true, if_false]
      exact ih hreg hnodup.2

/-- C4 counterexample: identity `a` has nickname `bob` bound and sends a
plain line with one other identity connected; `sendAll` compares roster
keys against the display name, so `a` receives the attributed framing like
everyone else and no self-framed `> hi` line is produced at all — the
claimed fan-out (exactly one self-framed message to the sender) fails. -/
theorem C4_counterexample :
    step ⟨[("a", connA), ("b", connB)], [("a", "bob")], [("bob", "a")]⟩
        (Event.inbound connA "hi") =
      some (⟨[("a", connA), ("b", connB)], [("a", "bob")], [("bob", "a")]⟩,
        [(connA, "bob> hi\n"), (connB, "bob> hi\n")]) ∧
    (connA, "> hi\n") ∉ [((connA : Conn), "bob> hi\n"), (connB, "bob> hi\n")] := by
  decide

/-- C4 (amended): for a sender with no nickname bound (display name equals
the raw identity) and distinct roster keys, a plain inbound line produces
one output per roster entry, the unique self-framed `> text` line goes to
the sender's connection, and every other roster entry receives the line
attributed with the sender's identity.  When the sender has a nickname
bound, `sendAll` matches roster keys against the nickname, so the sender
gets the attributed framing too (see the counterexample). -/
theorem C4_broadcast_fanout (pool : Pool) (conn : Conn) (text : String)
    (hplain : goHasPrefix text "/" = false)
    (haddr : conn.addr ≠ "")
    (hreg : mget pool.connections conn.addr = some conn)
    (hnodup : (pool.connections.map Prod.fst).Nodup)
    (hnonick : mget pool.nicks conn.addr = none) :
    ∃ out, step pool (Event.inbound conn text) = some (pool, out) ∧
      out.length = pool.connections.length ∧
      (out.filter fun o => o.2 == "> " ++ text ++ "\n") =
        [(conn, "> " ++ text ++ "\n")] ∧
      ∀ p ∈ pool.connections, p.1 ≠ conn.addr →
        (p.2, conn.addr ++ "> " ++ text ++ "\n") ∈ out := by
  refine ⟨sendAll pool conn.addr text, ?_, ?_, ?_, ?_⟩
  · rw [step_inbound_plain pool conn text hplain]
    simp [handleMessage, getNames, hnonick]
  · rw [sendAll]
    exact List.length_map _ _
  · rw [sendAll]
    exact filter_self_singleton _ _ _ _ haddr hreg hnodup
  · intro p hp hne
    rw [sendAll]
    exact List.mem_map.mpr ⟨p, hp, by rw [if_neg hne]⟩

/-- C4 witness: the amended fan-out at a concrete two-user roster with an
unnicknamed sender. -/
theorem C4_witness :
    mget (Pool.connections ⟨[("a", connA), ("b", connB)], [], []⟩) connA.addr =
      some connA ∧
    (∃ out, step ⟨[("a", connA), ("b", connB)], [], []⟩
        (Event.inbound connA "hi") =
        some (⟨[("a", connA), ("b", connB)], [], []⟩, out) ∧
      out.length =
        (Pool.connections ⟨[("a", connA), ("b", connB)], [], []⟩).length ∧
      (out.filter fun o => o.2 == "> " ++ "hi" ++ "\n") =
        [(connA, "> " ++ "hi" ++ "\n")] ∧
      ∀ p ∈ Pool.connections ⟨[("a", connA), ("b", connB)], [], []⟩,
        p.1 ≠ connA.addr → (p.2, connA.addr ++ "> " ++ "hi" ++ "\n") ∈ out) :=
  ⟨by decide, C4_broadcast_fanout _ connA "hi" (by decide) (by decide)
    (by decide) (by decide) (by decide)⟩

/-- C8: `/privmsg <target> <text>` resolves the target through the reverse
nickname index first and the roster second; an unresolved target or a
self-target yields a sender-only notice with no state change, and a
resolved foreign target receives exactly one privately framed line carrying
the sender's display name while the sender alone gets the confirmation. -/
theorem C8_privmsg_routing (pool : Pool) (conn : Conn) (text target : String)
    (rest : List String)
    (hsplit : goSplitChar ' ' text = "/privmsg" :: target :: rest)
    (hpre : goHasPrefix text "/" = true) :
    (connectionFromNickOrName pool target = none →
      step pool (Event.inbound conn text) =
        some (pool, [(conn, "Couldn't find a person named '" ++ target ++ "'\n")])) ∧
    (connectionFromNickOrName pool target = some conn →
      step pool (Event.inbound conn text) =
        some (pool, [(conn, "You can't privmsg yourself\n")])) ∧
    (∀ remote, connectionFromNickOrName pool target = some remote →
      remote ≠ conn →
      step pool (Event.inbound conn text) =
        some (pool, [(remote,
          (getNames pool ⟨conn, text⟩).2 ++ " (private)> " ++ goJoin " " rest ++ "\n"),
          (conn, "Message sent\n")])) := by
  refine ⟨?_, ?_, ?_⟩
  · intro hres
    rw [step_inbound_command pool conn text hpre]
    simp only [handleCommand, hsplit, hres]
    rw [if_neg (show ¬(("/privmsg" : String) = "/nick") by decide),
      if_pos trivial]
  · intro hres
    rw [step_inbound_command pool conn text hpre]
    simp only [handleCommand, hsplit, hres]
    rw [if_neg (show ¬(("/privmsg" : String) = "/nick") by decide),
      if_pos trivial, if_pos trivial]
  · intro remote hres hne
    rw [step_inbound_command pool conn text hpre]
    simp only [handleCommand, hsplit, hres]
    rw [if_neg (show ¬(("/privmsg" : String) = "/nick") by decide),
      if_pos trivial, if_neg hne]

/-- C8 witness: the success branch at a concrete three-user state, with the
target resolved through its nickname. -/
theorem C8_witness :
    goSplitChar ' ' "/privmsg bob hi there" = ["/privmsg", "bob", "hi", "there"] ∧
    step ⟨[("a", connA), ("b", connB), ("c", connC)], [("a", "bob")], [("bob", "a")]⟩
        (Event.inbound connB "/privmsg bob hi there") =
      some (⟨[("a", connA), ("b", connB), ("c", connC)], [("a", "bob")], [("bob", "a")]⟩,
        [(connA, "b (private)> hi there\n"), (connB, "Message sent\n")]) :=
  ⟨by decide,
    (C8_privmsg_routing _ connB "/privmsg bob hi there" "bob" ["hi", "there"]
      (by decide) (by decide)).2.2 connA (by decide) (by decide)⟩

/-- A successful step result determines the post-state. -/
theorem state_of_some_eq {a pool' : Pool} {l out : List Output}
    (h : (some (a, l) : Option (Pool × List Output)) = some (pool', out)) :
    pool' = a := by
  injection h with h'
  exact (congrArg Prod.fst h').symm

/-- Case analysis on `handleCommand`: every branch leaves the state
unchanged except the successful `/nick`, which installs the new forward and
reverse bindings (and removes nothing). -/
theorem handleCommand_cases (pool : Pool) (msg : Msg) (pool' : Pool)
    (out : List Output) (h : handleCommand pool msg = some (pool', out)) :
    pool' = pool ∨
    ∃ newNick, goSplitChar ' ' msg.message = ["/nick", newNick] ∧
      connectionFromNickOrName pool newNick = none ∧
      pool' = ⟨pool.connections, mput pool.nicks msg.connection.addr newNick,
        mput pool.rnicks newNick msg.connection.addr⟩ := by
  rcases hsplit : goSplitChar ' ' msg.message with _ | ⟨cmd, parts⟩
  · simp only [handleCommand, hsplit] at h
    exact Option.noConfusion h
  · simp only [handleCommand, hsplit, getNames] at h
    split at h
    · rename_i hc
      split at h
      · exact Or.inl (state_of_some_eq h)
      · rename_i hlen
        split at h
        · exact Option.noConfusion h
        · rename_i newNick tail
          split at h
          · exact Or.inl (state_of_some_eq h)
          · rename_i hres
            have htail : tail = [] := by
              cases tail with
              | nil => rfl
              | cons b bs =>
                exact absurd (by simp only [List.length_cons]; omega) hlen
            subst htail
            subst hc
            exact Or.inr ⟨newNick, rfl, hres, state_of_some_eq h⟩
    · split at h
      · split at h
        · exact Option.noConfusion h
        · split at h
          · exact Or.inl (state_of_some_eq h)
          · split at h
            · exact Or.inl (state_of_some_eq h)
            · exact Or.inl (state_of_some_eq h)
      · split at h
        · exact Or.inl (state_of_some_eq h)
        · exact Or.inl (state_of_some_eq h)

/-- C2 counterexample: the one-user state where `a` holds nickname `bob`
satisfies the claimed invariant, yet Unregister(`a`) — which deletes only
the roster entry — leaves a state where the binding survives without a
roster entry, so the invariant is not preserved by every event. -/
theorem C2_counterexample :
    NickConsistent ⟨[("a", connA)], [("a", "bob")], [("bob", "a")]⟩ ∧
    step ⟨[("a", connA)], [("a", "bob")], [("bob", "a")]⟩
      (Event.unregister connA) =
      some (⟨[], [("a", "bob")], [("bob", "a")]⟩, []) ∧
    ¬ NickConsistent ⟨[], [("a", "bob")], [("bob", "a")]⟩ := by
  refine ⟨⟨?_, ?_, ?_⟩, by decide, ?_⟩
  · intro name nick h
    rw [show mget [("a", "bob")] name = if "a" = name then some "bob" else none
      from rfl] at h
    by_cases hk : "a" = name
    · subst hk
      decide
    · rw [if_neg hk] at h
      exact Option.noConfusion h
  · intro name nick h
    rw [show mget [("a", "bob")] name = if "a" = name then some "bob" else none
      from rfl] at h
    by_cases hk : "a" = name
    · subst hk
      injection h with h2
      subst h2
      decide
    · rw [if_neg hk] at h
      exact Option.noConfusion h
  · intro nick name h
    rw [show mget [("bob", "a")] nick = if "bob" = nick then some "a" else none
      from rfl] at h
    by_cases hk : "bob" = nick
    · subst hk
      injection h with h2
      subst h2
      decide
    · rw [if_neg hk] at h
      exact Option.noConfusion h
  · intro hbad
    have h1 := hbad.1 "a" "bob" (by decide)
    exact absurd h1 (by decide)

/-- C2 (amended): the claimed invariant is preserved by Register, Shutdown
and by every Inbound or Unregister event except the two the counterexample
family exposes: Unregister of an identity that still holds a forward
nickname binding, and a successful `/nick` by a sender that already has a
(different) nickname bound.  Formally: assuming the sender of an inbound
line is registered, that an unregistered identity holds no forward binding,
and that an inbound event either comes from a sender with no forward
binding or does not change the forward map, the invariant is preserved. -/
theorem C2_invariant_preserved (pool pool' : Pool) (e : Event)
    (out : List Output)
    (hinv : NickConsistent pool)
    (hstep : step pool e = some (pool', out))
    (hsender : ∀ conn text, e = Event.inbound conn text →
      mget pool.connections conn.addr = some conn)
    (hunreg : ∀ conn, e = Event.unregister conn →
      mget pool.nicks conn.addr = none)
    (hfresh : ∀ conn text, e = Event.inbound conn text →
      mget pool.nicks conn.addr = none ∨ pool'.nicks = pool.nicks) :
    NickConsistent pool' := by
  obtain ⟨h1, h2, h3⟩ := hinv
  cases e with
  | register conn =>
    simp only [step] at hstep
    have hp := state_of_some_eq hstep
    subst hp
    refine ⟨?_, h2, h3⟩
    intro name nick hn
    replace hn : mget pool.nicks name = some nick := hn
    show (mget (mput pool.connections conn.addr conn) name).isSome = true
    by_cases hk : name = conn.addr
    · subst hk
      rw [mget_mput_self]
      rfl
    · rw [mget_mput_ne _ _ _ _ fun hh => hk hh.symm]
      exact h1 name nick hn
  | unregister conn =>
    simp only [step] at hstep
    have hp := state_of_some_eq hstep
    subst hp
    have hno := hunreg conn rfl
    refine ⟨?_, h2, h3⟩
    intro name nick hn
    replace hn : mget pool.nicks name = some nick := hn
    show (mget (mdel pool.connections conn.addr) name).isSome = true
    by_cases hk : name = conn.addr
    · subst hk
      rw [hno] at hn
      exact Option.noConfusion hn
    · rw [mget_mdel_ne _ _ _ fun hh => hk hh.symm]
      exact h1 name nick hn
  | shutdown =>
    simp only [step] at hstep
    have hp := state_of_some_eq hstep
    subst hp
    exact ⟨h1, h2, h3⟩
  | inbound conn text =>
    have hsend := hsender conn text rfl
    by_cases hpre : goHasPrefix text "/" = true
    · rw [step_inbound_command _ _ _ hpre] at hstep
      rcases handleCommand_cases _ _ _ _ hstep with heq | ⟨newNick, hsplit, hres, heq⟩
      · subst heq
        exact ⟨h1, h2, h3⟩
      · subst heq
        rcases hfresh conn text rfl with hno | hsame
        · have hrev_none : mget pool.rnicks newNick = none := by
            cases hrev : mget pool.rnicks newNick with
            | none => rfl
            | some t =>
              rw [connectionFromNickOrName] at hres
              simp only [hrev] at hres
              have ht := h3 newNick t hrev
              have hs := h1 t newNick ht
              rw [hres] at hs
              exact Bool.noConfusion hs
          refine ⟨?_, ?_, ?_⟩
          · intro name nick hn
            replace hn :
                mget (mput pool.nicks conn.addr newNick) name = some nick := hn
            show (mget pool.connections name).isSome = true
            by_cases hk : name = conn.addr
            · subst hk
              rw [hsend]
              rfl
            · rw [mget_mput_ne _ _ _ _ fun hh => hk hh.symm] at hn
              exact h1 name nick hn
          · intro name nick hn
            replace hn :
                mget (mput pool.nicks conn.addr newNick) name = some nick := hn
            show mget (mput pool.rnicks newNick conn.addr) nick = some name
            by_cases hk : name = conn.addr
            · subst hk
              rw [mget_mput_self] at hn
              injection hn with hn2
              subst hn2
              exact mget_mput_self _ _ _
            · rw [mget_mput_ne _ _ _ _ fun hh => hk hh.symm] at hn
              by_cases hnk : nick = newNick
              · subst hnk
                have := h2 name nick hn
                rw [hrev_none] at this
                exact Option.noConfusion this
              · rw [mget_mput_ne _ _ _ _ fun hh => hnk hh.symm]
                exact h2 name nick hn
          · intro nick name hn
            replace hn :
                mget (mput pool.rnicks newNick conn.addr) nick = some name := hn
            show mget (mput pool.nicks conn.addr newNick) name = some nick
            by_cases hk : nick = newNick
            · subst hk
              rw [mget_mput_self] at hn
              injection hn with hn2
              subst hn2
              exact mget_mput_self _ _ _
            · rw [mget_mput_ne _ _ _ _ fun hh => hk hh.symm] at hn
              have hb := h3 nick name hn
              by_cases hna : name = conn.addr
              · subst hna
                rw [hno] at hb
                exact Option.noConfusion hb
              · rw [mget_mput_ne _ _ _ _ fun hh => hna hh.symm]
                exact hb
        · replace hsame : mput pool.nicks conn.addr newNick = pool.nicks := hsame
          have hmg : mget pool.nicks conn.addr = some newNick := by
            rw [← hsame]
            exact mget_mput_self _ _ _
          have hr := h2 conn.addr newNick hmg
          rw [connectionFromNickOrName] at hres
          simp only [hr] at hres
          rw [hsend] at hres
          exact Option.noConfusion hres
    · have hpre' : goHasPrefix text "/" = false := by
        cases hb : goHasPrefix text "/" with
        | false => rfl
        | true => exact absurd hb hpre
      rw [step_inbound_plain _ _ _ hpre'] at hstep
      simp only [handleMessage] at hstep
      have hp := state_of_some_eq hstep
      subst hp
      exact ⟨h1, h2, h3⟩

/-- C2 witness: the amended preservation applied to a Register event from
an invariant-satisfying concrete state. -/
theorem C2_witness :
    NickConsistent ⟨[("a", connA), ("b", connB)], [], []⟩ :=
  C2_invariant_preserved ⟨[("a", connA)], [], []⟩
    ⟨[("a", connA), ("b", connB)], [], []⟩ (Event.register connB) []
    ⟨fun _ _ h => Option.noConfusion h, fun _ _ h => Option.noConfusion h,
      fun _ _ h => Option.noConfusion h⟩
    (by decide)
    (fun _ _ h => Event.noConfusion h)
    (fun _ h => Event.noConfusion h)
    (fun _ _ h => Event.noConfusion h)

end ChatHub
